import Mathlib

/-!
Verification of the `extract` batch-orchestration program.

Strings are modelled as lists of characters (`Str`), timestamps as
naturals, and fallible operations as `Except`/`Option` values.  Each
definition below is a shallow embedding of the correspondingly named
function of the Go source.
-/

namespace Extract

/-- Strings of the program, modelled as lists of characters. -/
abbrev Str := List Char

/-- The status literal `"SUCCESS"` assigned by the run loops. -/
def successStatus : Str := "SUCCESS".data

/-- The status literal `"FAIL"` assigned by the run loops. -/
def failStatus : Str := "FAIL".data

/-- One update tuple fed to the summary map: the start time, end time and
status of one execution attempt (`start`/`end`/`plog.Status` in
`runProceduresForSol`). -/
structure Outcome where
  start : Nat
  endTime : Nat
  status : Str
deriving DecidableEq

/-- The `ProcSummary` record of `types.go`: per-operation aggregate of
earliest start, latest end and sticky status. -/
structure ProcSummary where
  Procedure : Str
  StartTime : Nat
  EndTime : Nat
  Status : Str
deriving DecidableEq

/-- The summary-map mutation of `runProceduresForSol` (runProc.go lines
45-62), for one operation name.  `none` models the operation being absent
from the map (`!exists`); otherwise the entry is updated exactly as in the
source: earlier start wins, later end wins, and the status is set to
`"FAIL"` when the existing status is not `"FAIL"` and the incoming one is. -/
def updateSummary (proc : Str) (o : Option ProcSummary) (t : Outcome) :
    Option ProcSummary :=
  match o with
  | none =>
      some { Procedure := proc, StartTime := t.start, EndTime := t.endTime,
             Status := t.status }
  | some s =>
      let s1 := if t.start < s.StartTime then { s with StartTime := t.start } else s
      let s2 := if s1.EndTime < t.endTime then { s1 with EndTime := t.endTime } else s1
      let s3 := if s2.Status ≠ failStatus ∧ t.status = failStatus then
                  { s2 with Status := failStatus } else s2
      some s3

/-- Status of a summary entry; the empty string when the entry is absent. -/
def aggStatus : Option ProcSummary → Str
  | none => []
  | some s => s.Status

theorem success_ne_fail : successStatus ≠ failStatus := by decide

/-- Normal form of one update on an existing entry: earliest start, latest
end, sticky status. -/
theorem updateSummary_some (proc : Str) (s : ProcSummary) (t : Outcome) :
    updateSummary proc (some s) t =
      some { Procedure := s.Procedure,
             StartTime := min t.start s.StartTime,
             EndTime := max s.EndTime t.endTime,
             Status := if s.Status ≠ failStatus ∧ t.status = failStatus then
                         failStatus else s.Status } := by
  rcases s with ⟨p, st, en, q⟩
  simp only [updateSummary]
  split_ifs <;> simp_all [ProcSummary.mk.injEq] <;> omega

theorem updateSummary_comm (proc : Str) (x y : Outcome)
    (hx : x.status = successStatus ∨ x.status = failStatus)
    (hy : y.status = successStatus ∨ y.status = failStatus) :
    ∀ z, updateSummary proc (updateSummary proc z x) y =
         updateSummary proc (updateSummary proc z y) x := by
  intro z
  cases z with
  | none =>
      show updateSummary proc (some _) y = updateSummary proc (some _) x
      rw [updateSummary_some, updateSummary_some]
      simp only [Option.some.injEq, ProcSummary.mk.injEq]
      refine ⟨trivial, by omega, by omega, ?_⟩
      rcases hx with hx | hx <;> rcases hy with hy | hy <;>
        simp [hx, hy, success_ne_fail]
  | some s =>
      rw [updateSummary_some, updateSummary_some, updateSummary_some,
          updateSummary_some]
      simp only [Option.some.injEq, ProcSummary.mk.injEq]
      refine ⟨trivial, by omega, by omega, ?_⟩
      rcases hx with hx | hx <;> rcases hy with hy | hy <;>
        by_cases hs : s.Status = failStatus <;>
          simp [hx, hy, hs, success_ne_fail]

/-- C2.  The summary update is commutative: folding any permutation of a
finite collection of (start, end, status) tuples with statuses in
SUCCESS/FAIL into an operation's (initially absent) summary entry yields
the same final aggregate. -/
theorem summary_update_commutative (proc : Str) (l₁ l₂ : List Outcome)
    (hperm : l₁.Perm l₂)
    (hok : ∀ t ∈ l₁, t.status = successStatus ∨ t.status = failStatus) :
    List.foldl (updateSummary proc) none l₁ =
      List.foldl (updateSummary proc) none l₂ := by
  exact hperm.foldl_eq'
    (fun x hxm y hym z => updateSummary_comm proc x y (hok x hxm) (hok y hym) z)
    none

theorem summary_update_commutative_witness :
    List.foldl (updateSummary ("P1".data)) none
        [⟨3, 5, successStatus⟩, ⟨1, 9, failStatus⟩] =
      List.foldl (updateSummary ("P1".data)) none
        [⟨1, 9, failStatus⟩, ⟨3, 5, successStatus⟩] :=
  summary_update_commutative ("P1".data)
    [⟨3, 5, successStatus⟩, ⟨1, 9, failStatus⟩]
    [⟨1, 9, failStatus⟩, ⟨3, 5, successStatus⟩]
    (by decide) (by decide)

/-- An update carrying status FAIL always leaves the entry with status
FAIL, whether or not the entry already existed. -/
theorem updateSummary_fail_status (proc : Str) (o : Option ProcSummary)
    (st en : Nat) :
    aggStatus (updateSummary proc o ⟨st, en, failStatus⟩) = failStatus := by
  cases o with
  | none => rfl
  | some s =>
      rw [updateSummary_some]
      by_cases hs : s.Status = failStatus <;> simp [aggStatus, hs]

/-- Once an entry's status is FAIL, any further update leaves it FAIL. -/
theorem foldl_update_fail (proc : Str) (l : List Outcome) :
    ∀ s : ProcSummary, s.Status = failStatus →
      aggStatus (List.foldl (updateSummary proc) (some s) l) = failStatus := by
  induction l with
  | nil => intro s hs; simpa [aggStatus] using hs
  | cons t rest ih =>
      intro s hs
      rw [List.foldl_cons, updateSummary_some]
      exact ih _ (by simp [hs])

/-- C3.  Sticky failure: as soon as one FAIL update has been applied to an
operation's summary entry, the aggregate status is FAIL after every
subsequent sequence of updates, no matter how many SUCCESS updates follow. -/
theorem summary_status_sticky_fail (proc : Str) (o : Option ProcSummary)
    (st en : Nat) (l : List Outcome) :
    aggStatus (List.foldl (updateSummary proc)
        (updateSummary proc o ⟨st, en, failStatus⟩) l) = failStatus := by
  have h0 := updateSummary_fail_status proc o st en
  cases ho : updateSummary proc o ⟨st, en, failStatus⟩ with
  | none => rw [ho] at h0; exact absurd h0 (by decide)
  | some s =>
      rw [ho] at h0
      exact foldl_update_fail proc l s h0

/-- The fields of `ExtractionConfig` consumed by the embedded functions. -/
structure ExtractionConfig where
  PackageName : Str
  Procedures : List Str
  SpoolOutputPath : Str
  Format : Str
  Delimiter : Str
deriving DecidableEq

/-- The `ProcLog` record of `types.go`.  The `ExecutionTime` field is the
difference of the two timestamps and is omitted. -/
structure ProcLog where
  SolID : Str
  Procedure : Str
  StartTime : Nat
  EndTime : Nat
  Status : Str
  ErrorDetails : Str
deriving DecidableEq

/-- Environment for one execution attempt: given the entity and operation
name, yields the observed start time, end time, and the error returned by
`callProcedure` (`none` on success). -/
abbrev ExecOracle := Str → Str → Nat × Nat × Option Str

/-- The body of the worker loop of `runProceduresForSol` (runProc.go lines
19-44): one execution attempt turned into the `ProcLog` sent on `logCh`. -/
def execLog (oracle : ExecOracle) (solID proc : Str) : ProcLog :=
  let r := oracle solID proc
  { SolID := solID, Procedure := proc, StartTime := r.1, EndTime := r.2.1,
    Status := if r.2.2.isSome then failStatus else successStatus,
    ErrorDetails := r.2.2.getD [] }

/-- `runProceduresForSol` (runProc.go lines 11-74): every operation name of
the configuration is sent once on the operation channel and received by
exactly one of the pool workers, which produces exactly one `ProcLog` for
it; the function returns only after the channel is drained and every worker
has finished.  The multiset of logs produced is therefore one per listed
operation, modelled as a map over the operation list. -/
def runProceduresForSol (oracle : ExecOracle) (solID : Str)
    (cfg : ExtractionConfig) : List ProcLog :=
  cfg.Procedures.map (execLog oracle solID)

/-- The dispatch loop of `main`: one `runProceduresForSol` invocation per
entity in the entity list; the returned list is the collection of all
`ProcLog` records sent to the log channel over the whole run. -/
def runAllSols (oracle : ExecOracle) (sols : List Str)
    (cfg : ExtractionConfig) : List ProcLog :=
  sols.flatMap (fun s => runProceduresForSol oracle s cfg)

theorem countP_beq_one_of_nodup (l : List Str) (p : Str)
    (hnd : l.Nodup) (hmem : p ∈ l) : l.countP (fun x => x == p) = 1 := by
  induction l with
  | nil => cases hmem
  | cons a rest ih =>
      rw [List.countP_cons]
      by_cases h : a = p
      · subst h
        have hnot : a ∉ rest := (List.nodup_cons.mp hnd).1
        have hz : rest.countP (fun x => x == a) = 0 :=
          List.countP_eq_zero.mpr fun x hx => by
            simp only [beq_iff_eq]
            exact fun hc => hnot (hc ▸ hx)
        simp [hz]
      · have hmem' : p ∈ rest := by
          rcases List.mem_cons.mp hmem with h1 | h1
          · exact absurd h1.symm h
          · exact h1
        have hb : (a == p) = false := beq_eq_false_iff_ne.mpr h
        simp [hb, ih (List.nodup_cons.mp hnd).2 hmem']

theorem countP_run_single (oracle : ExecOracle) (s' s p : Str)
    (cfg : ExtractionConfig) :
    (runProceduresForSol oracle s' cfg).countP
        (fun o => o.SolID == s && o.Procedure == p) =
      if s' = s then cfg.Procedures.countP (fun x => x == p) else 0 := by
  unfold runProceduresForSol
  rw [List.countP_map]
  by_cases h : s' = s
  · subst h
    simp [Function.comp_def, execLog]
  · have hb : (s' == s) = false := beq_eq_false_iff_ne.mpr h
    simp [Function.comp_def, execLog, hb, h]

theorem countP_runAll_zero (oracle : ExecOracle) (sols : List Str)
    (cfg : ExtractionConfig) (s p : Str) (hs : s ∉ sols) :
    (runAllSols oracle sols cfg).countP
      (fun o => o.SolID == s && o.Procedure == p) = 0 := by
  induction sols with
  | nil => simp [runAllSols]
  | cons σ rest ih =>
      have hσ : σ ≠ s := fun hc => hs (hc ▸ List.mem_cons_self σ rest)
      have hrest : s ∉ rest := fun hc => hs (List.mem_cons_of_mem σ hc)
      simp only [runAllSols, List.flatMap_cons, List.countP_append] at *
      rw [countP_run_single, if_neg hσ, ih hrest]

/-- C4.  After a run completes, every (entity, operation) pair of the cross
product of the entity list and the operation list gives rise to exactly one
`ProcLog` sent to the log channel: no pair is skipped and none duplicated. -/
theorem outcome_exactly_once_per_pair (oracle : ExecOracle) (sols : List Str)
    (cfg : ExtractionConfig) (s p : Str)
    (hs : sols.Nodup) (hp : cfg.Procedures.Nodup)
    (hsm : s ∈ sols) (hpm : p ∈ cfg.Procedures) :
    (runAllSols oracle sols cfg).countP
      (fun o => o.SolID == s && o.Procedure == p) = 1 := by
  induction sols with
  | nil => cases hsm
  | cons σ rest ih =>
      simp only [runAllSols, List.flatMap_cons, List.countP_append]
      by_cases h : σ = s
      · have hσnot : σ ∉ rest := (List.nodup_cons.mp hs).1
        have hrest : s ∉ rest := h ▸ hσnot
        have hz := countP_runAll_zero oracle rest cfg s p hrest
        simp only [runAllSols] at hz
        rw [countP_run_single, if_pos h,
            countP_beq_one_of_nodup cfg.Procedures p hp hpm, hz]
      · have hsm' : s ∈ rest := by
          rcases List.mem_cons.mp hsm with h1 | h1
          · exact absurd h1.symm h
          · exact h1
        rw [countP_run_single, if_neg h]
        simpa [runAllSols] using
          ih (List.nodup_cons.mp hs).2 hsm'

theorem outcome_exactly_once_per_pair_witness :
    (runAllSols (fun _ _ => (0, 1, none)) ["S1".data, "S2".data]
        { PackageName := "PKG".data, Procedures := ["P1".data, "P2".data],
          SpoolOutputPath := [], Format := [], Delimiter := [] }).countP
      (fun o => o.SolID == "S1".data && o.Procedure == "P1".data) = 1 :=
  outcome_exactly_once_per_pair (fun _ _ => (0, 1, none))
    ["S1".data, "S2".data]
    { PackageName := "PKG".data, Procedures := ["P1".data, "P2".data],
      SpoolOutputPath := [], Format := [], Delimiter := [] }
    ("S1".data) ("P1".data)
    (by decide) (by decide) (by decide) (by decide)

/-- The `ColumnConfig` record produced by the layout reader: column name,
width (`Length`) and alignment string.  Widths are modelled as naturals:
the layout describes byte counts, and the Go slicing `val[:col.Length]`
only executes on non-negative widths. -/
structure ColumnConfig where
  Name : Str
  Length : Nat
  Align : Str
deriving DecidableEq

/-- Model of `sanitize` (part_003): the two nested `strings.ReplaceAll`
calls replace every newline, then every carriage return, with a single
space; as both patterns are single characters each pass is a
character-wise map. -/
def sanitize (s : Str) : Str :=
  (s.map fun c => if c = '\n' then ' ' else c).map
    fun c => if c = '\r' then ' ' else c

/-- Model of the format verb used for right-aligned fixed columns:
pad with spaces on the left up to the width (no padding when the value is
at least as long). -/
def justifyRight (w : Nat) (s : Str) : Str :=
  List.replicate (w - s.length) ' ' ++ s

/-- Model of the format verb used for left-aligned fixed columns: pad with
spaces on the right up to the width. -/
def justifyLeft (w : Nat) (s : Str) : Str :=
  s ++ List.replicate (w - s.length) ' '

/-- One iteration of the fixed-width loop of `formatRow`: sanitize,
truncate to the column width when strictly longer, then justify according
to the `Align` field (`"right"` pads on the left, anything else on the
right). -/
def formatCellFixed (col : ColumnConfig) (v : Str) : Str :=
  let val := sanitize v
  let val2 := if val.length > col.Length then val.take col.Length else val
  if col.Align = "right".data then justifyRight col.Length val2
  else justifyLeft col.Length val2

/-- The `"fixed"` branch of `formatRow`, which walks the column list and
indexes `values` by the column position; `none` models the
index-out-of-range panic raised when the value list is shorter than the
column list. -/
def formatRowFixed : List ColumnConfig → List Str → Option Str
  | [], _ => some []
  | _ :: _, [] => none
  | col :: cols, v :: vs =>
      match formatRowFixed cols vs with
      | none => none
      | some rest => some (formatCellFixed col v ++ rest)

/-- Model of `formatRow` (part_003): the `"delimited"` case joins the
sanitized values with the configured delimiter, the `"fixed"` case is
`formatRowFixed`, and every other format string falls to the `default`
case, returning the empty string.  The Go function returns a plain string
and has no error channel; `none` occurs only for the fixed-width panic. -/
def formatRow (cfg : ExtractionConfig) (cols : List ColumnConfig)
    (values : List Str) : Option Str :=
  if cfg.Format = "delimited".data then
    some (List.intercalate cfg.Delimiter (values.map sanitize))
  else if cfg.Format = "fixed".data then
    formatRowFixed cols values
  else
    some []

/-- A fixed-width cell as the specification words it: the sanitized value
truncated to the column width, then padded with spaces to exactly that
width, on the left for a right-aligned column and on the right otherwise. -/
def specFixedCell (col : ColumnConfig) (v : Str) : Str :=
  let t := (sanitize v).take col.Length
  if col.Align = "right".data then
    List.replicate (col.Length - t.length) ' ' ++ t
  else
    t ++ List.replicate (col.Length - t.length) ' '

theorem formatCellFixed_eq_spec (col : ColumnConfig) (v : Str) :
    formatCellFixed col v = specFixedCell col v := by
  unfold formatCellFixed specFixedCell justifyRight justifyLeft
  by_cases h : (sanitize v).length > col.Length
  · simp [h]
  · have hle : (sanitize v).length ≤ col.Length := Nat.le_of_not_lt h
    simp [h, List.take_of_length_le hle]

theorem specFixedCell_length (col : ColumnConfig) (v : Str) :
    (specFixedCell col v).length = col.Length := by
  unfold specFixedCell
  split_ifs <;> simp

theorem formatRowFixed_eq_spec (cols : List ColumnConfig) (values : List Str)
    (hlen : values.length = cols.length) :
    formatRowFixed cols values =
      some ((cols.zip values).flatMap fun cv => specFixedCell cv.1 cv.2) := by
  induction cols generalizing values with
  | nil =>
      cases values with
      | nil => rfl
      | cons v vs => simp at hlen
  | cons c cs ih =>
      cases values with
      | nil => simp at hlen
      | cons v vs =>
          have h := ih vs (by simpa using hlen)
          simp [formatRowFixed, h, formatCellFixed_eq_spec]

theorem spec_cells_length (cols : List ColumnConfig) (values : List Str)
    (hlen : values.length = cols.length) :
    ((cols.zip values).flatMap fun cv => specFixedCell cv.1 cv.2).length =
      (cols.map ColumnConfig.Length).sum := by
  induction cols generalizing values with
  | nil => simp
  | cons c cs ih =>
      cases values with
      | nil => simp at hlen
      | cons v vs =>
          simp [specFixedCell_length, ih vs (by simpa using hlen)]

/-- C5.  In fixed-width mode, for a row with one value per column, the
formatted line is the separator-free concatenation of the per-column
cells — each the sanitized value truncated to the column width and padded
with spaces to exactly that width on the side dictated by the alignment —
and the line's length is the sum of the column widths. -/
theorem fixed_width_row_shape (cfg : ExtractionConfig)
    (cols : List ColumnConfig) (values : List Str)
    (hf : cfg.Format = "fixed".data)
    (hlen : values.length = cols.length) :
    ∃ out, formatRow cfg cols values = some out ∧
      out = ((cols.zip values).flatMap fun cv => specFixedCell cv.1 cv.2) ∧
      out.length = (cols.map ColumnConfig.Length).sum := by
  refine ⟨(cols.zip values).flatMap fun cv => specFixedCell cv.1 cv.2,
    ?_, rfl, spec_cells_length cols values hlen⟩
  unfold formatRow
  rw [hf, if_neg (by decide), if_pos rfl]
  exact formatRowFixed_eq_spec cols values hlen

theorem fixed_width_row_shape_witness :
    ∃ out, formatRow
        { PackageName := [], Procedures := [], SpoolOutputPath := [],
          Format := "fixed".data, Delimiter := [] }
        [⟨"ID".data, 5, "left".data⟩, ⟨"AMT".data, 6, "right".data⟩]
        ["7".data, "42".data] = some out ∧
      out = (([⟨"ID".data, 5, "left".data⟩,
               ⟨"AMT".data, 6, "right".data⟩] :
               List ColumnConfig).zip ["7".data, "42".data]).flatMap
              (fun cv => specFixedCell cv.1 cv.2) ∧
      out.length = (([⟨"ID".data, 5, "left".data⟩,
                      ⟨"AMT".data, 6, "right".data⟩] :
                      List ColumnConfig).map ColumnConfig.Length).sum :=
  fixed_width_row_shape
    { PackageName := [], Procedures := [], SpoolOutputPath := [],
      Format := "fixed".data, Delimiter := [] }
    [⟨"ID".data, 5, "left".data⟩, ⟨"AMT".data, 6, "right".data⟩]
    ["7".data, "42".data] (by decide) (by decide)

/-- C10.  The fixed-width branch is total exactly under the precondition
that there are at least as many values as columns: with enough values
every index access is in bounds; with fewer values than columns the access
is out of bounds (modelled as `none`); the delimited branch has no such
precondition. -/
theorem fixed_width_index_bounds :
    (∀ (cols : List ColumnConfig) (values : List Str),
        cols.length ≤ values.length →
          (formatRowFixed cols values).isSome = true) ∧
    formatRowFixed [⟨"C".data, 3, "left".data⟩] [] = none ∧
    (∀ (cfg : ExtractionConfig) (cols : List ColumnConfig)
        (values : List Str), cfg.Format = "delimited".data →
          (formatRow cfg cols values).isSome = true) := by
  refine ⟨?_, rfl, ?_⟩
  · intro cols
    induction cols with
    | nil => intro values h; simp [formatRowFixed]
    | cons c cs ih =>
        intro values h
        cases values with
        | nil => simp at h
        | cons v vs =>
            have h' := ih vs (by simpa using h)
            cases hres : formatRowFixed cs vs with
            | none => rw [hres] at h'; simp at h'
            | some rest => simp [formatRowFixed, hres]
  · intro cfg cols values hf
    unfold formatRow
    rw [hf, if_pos rfl]
    rfl

theorem fixed_width_index_bounds_witness :
    (formatRowFixed [⟨"C".data, 2, "left".data⟩]
        ["ab".data, "xy".data]).isSome = true :=
  fixed_width_index_bounds.1 [⟨"C".data, 2, "left".data⟩]
    ["ab".data, "xy".data] (by decide)

theorem mem_sanitize_ne {c : Char} {v : Str} (h : c ∈ sanitize v) :
    c ≠ '\n' ∧ c ≠ '\r' := by
  unfold sanitize at h
  rcases List.mem_map.mp h with ⟨b, hb, hbc⟩
  rcases List.mem_map.mp hb with ⟨a, _, hab⟩
  subst hbc
  subst hab
  constructor <;> split_ifs <;> simp_all

theorem mem_of_mem_intersperse {s : Str} :
    ∀ {L : List Str} {l : Str}, l ∈ List.intersperse s L → l = s ∨ l ∈ L := by
  intro L
  induction L with
  | nil => intro l h; cases h
  | cons a t ih =>
      intro l h
      cases t with
      | nil =>
          simp only [List.intersperse] at h
          right; exact h
      | cons b t' =>
          rw [List.intersperse_cons₂] at h
          rcases List.mem_cons.mp h with h1 | h1
          · right; exact h1 ▸ List.mem_cons_self a _
          · rcases List.mem_cons.mp h1 with h2 | h2
            · left; exact h2
            · rcases ih h2 with h3 | h3
              · left; exact h3
              · right; exact List.mem_cons_of_mem a h3

theorem mem_of_mem_intercalate {x c : Char} {L : List Str}
    (h : c ∈ List.intercalate [x] L) : c = x ∨ ∃ l ∈ L, c ∈ l := by
  unfold List.intercalate at h
  rcases List.mem_flatten.mp h with ⟨l, hl, hcl⟩
  rcases mem_of_mem_intersperse hl with h1 | h1
  · left
    subst h1
    rcases List.mem_singleton.mp hcl with rfl
    rfl
  · right; exact ⟨l, h1, hcl⟩

/-- C6, counterexample.  With delimiter `","` and input values
`["a,b", "c"]`, the delimited output is `"a,b,c"`, and splitting it on the
delimiter yields `["a", "b", "c"]`, not the sanitized input values: the
round-trip claimed for every list of values and every configured delimiter
fails when a value contains the delimiter. -/
theorem delimited_split_counterexample :
    formatRow { PackageName := [], Procedures := [], SpoolOutputPath := [],
                Format := "delimited".data, Delimiter := ",".data }
        [] ["a,b".data, "c".data] = some ("a,b,c".data) ∧
    ("a,b,c".data).splitOn ',' ≠ ["a,b".data, "c".data].map sanitize := by
  exact ⟨by decide, by decide⟩

/-- C6, amended.  For a nonempty list of values and a single-character
delimiter that is not a newline or carriage return and occurs in no
sanitized value, splitting the delimited output on the delimiter recovers
the sanitized values in order, and the output contains no newline or
carriage-return characters. -/
theorem delimited_split_roundtrip (cfg : ExtractionConfig) (c : Char)
    (cols : List ColumnConfig) (values : List Str)
    (hf : cfg.Format = "delimited".data) (hd : cfg.Delimiter = [c])
    (hne : values ≠ []) (hc1 : c ≠ '\n') (hc2 : c ≠ '\r')
    (hfree : ∀ v ∈ values, c ∉ sanitize v) :
    ∃ out, formatRow cfg cols values = some out ∧
      out.splitOn c = values.map sanitize ∧
      '\n' ∉ out ∧ '\r' ∉ out := by
  refine ⟨List.intercalate [c] (values.map sanitize), ?_, ?_, ?_, ?_⟩
  · unfold formatRow
    rw [hf, if_pos rfl, hd]
  · have hx : ∀ l ∈ values.map sanitize, c ∉ l := by
      intro l hl
      rcases List.mem_map.mp hl with ⟨v, hv, rfl⟩
      exact hfree v hv
    have hls : values.map sanitize ≠ [] :=
      fun hprod => hne (List.map_eq_nil_iff.mp hprod)
    exact List.splitOn_intercalate _ c hx hls
  · intro h
    rcases mem_of_mem_intercalate h with h1 | ⟨l, hl, hcl⟩
    · exact hc1 h1.symm
    · rcases List.mem_map.mp hl with ⟨v, hv, rfl⟩
      exact (mem_sanitize_ne hcl).1 rfl
  · intro h
    rcases mem_of_mem_intercalate h with h1 | ⟨l, hl, hcl⟩
    · exact hc2 h1.symm
    · rcases List.mem_map.mp hl with ⟨v, hv, rfl⟩
      exact (mem_sanitize_ne hcl).2 rfl

theorem delimited_split_roundtrip_witness :
    ∃ out, formatRow
        { PackageName := [], Procedures := [], SpoolOutputPath := [],
          Format := "delimited".data, Delimiter := ",".data }
        [] ["ab".data, "cd".data] = some out ∧
      out.splitOn ',' = (["ab".data, "cd".data]).map sanitize ∧
      '\n' ∉ out ∧ '\r' ∉ out :=
  delimited_split_roundtrip
    { PackageName := [], Procedures := [], SpoolOutputPath := [],
      Format := "delimited".data, Delimiter := ",".data }
    ',' [] ["ab".data, "cd".data]
    (by decide) (by decide) (by decide) (by decide) (by decide) (by decide)

/-- C9, counterexample.  With an unknown format string the formatter does
not surface any configuration error — the embedded `formatRow`, like the
Go function, returns a plain string with no error channel — it silently
produces the empty string for the row. -/
theorem unknown_format_counterexample :
    formatRow { PackageName := [], Procedures := [], SpoolOutputPath := [],
                Format := "xml".data, Delimiter := ",".data }
        [⟨"ID".data, 3, "left".data⟩] ["seven".data] = some [] := by
  decide

/-- C9, amended.  When the configured format is neither `"delimited"` nor
`"fixed"`, row formatting surfaces no error at all — once or per row — and
silently returns the empty string for every row; the run is not failed. -/
theorem unknown_format_silent_empty (cfg : ExtractionConfig)
    (cols : List ColumnConfig) (values : List Str)
    (h1 : cfg.Format ≠ "delimited".data) (h2 : cfg.Format ≠ "fixed".data) :
    formatRow cfg cols values = some [] := by
  unfold formatRow
  rw [if_neg h1, if_neg h2]

theorem unknown_format_silent_empty_witness :
    formatRow { PackageName := [], Procedures := [], SpoolOutputPath := [],
                Format := "json".data, Delimiter := "|".data }
        [] ["x".data, "y".data] = some [] :=
  unknown_format_silent_empty
    { PackageName := [], Procedures := [], SpoolOutputPath := [],
      Format := "json".data, Delimiter := "|".data }
    [] ["x".data, "y".data] (by decide) (by decide)

/-- Environment of one `extractData` call: the results of the external
steps it performs, in invocation order — the layout load
(`readColumnsFromCSV`), the query (whose rows each carry their `Scan`
result; a `none` value models a SQL NULL), the spool-file creation
(`os.Create`), and the per-row `WriteString` results. -/
structure ExtractEnv where
  layoutRes : Except Str (List ColumnConfig)
  queryRes : Except Str (List (Except Str (List (Option Str))))
  createRes : Except Str Unit
  writeRes : List (Except Str Unit)

/-- The scan-and-write loop of `extractData`: a row whose scan failed
returns that error; otherwise NULLs become empty strings, the row is
formatted and written to the spool file.  The `ws` list carries the
results of the `WriteString` calls: the source discards them, so they
never influence the returned value. -/
def extractLoop (cfg : ExtractionConfig) (cols : List ColumnConfig) :
    List (Except Str (List (Option Str))) → List (Except Str Unit) →
      Except Str Unit
  | [], _ => .ok ()
  | .error e :: _, _ => .error e
  | .ok row :: rest, ws =>
      let strValues := row.map (fun v => v.getD [])
      let _line := formatRow cfg cols strValues
      let _writeResult := ws.head?
      extractLoop cfg cols rest ws.tail

/-- Model of `extractData` (part_003): load the column layout, run the
query, create the spool file, then scan and write every row.  Each step's
error is returned — except the per-row `WriteString` result, which the
source ignores. -/
def extractData (cfg : ExtractionConfig) (env : ExtractEnv) :
    Except Str Unit :=
  match env.layoutRes with
  | .error e => .error e
  | .ok cols =>
      match env.queryRes with
      | .error e => .error e
      | .ok rowResults =>
          match env.createRes with
          | .error e => .error e
          | .ok _ => extractLoop cfg cols rowResults env.writeRes

/-- An environment in which everything succeeds except the spool-file
write of the single returned row. -/
def failingWriteEnv : ExtractEnv :=
  { layoutRes := .ok [⟨"ID".data, 3, "left".data⟩],
    queryRes := .ok [.ok [some "7".data]],
    createRes := .ok (),
    writeRes := [.error "write failed: no space left on device".data] }

/-- C7, divergence.  With a successful layout load, query and row scan but
a failing spool-file write, `extractData` still returns success: the
source discards the `WriteString` error, so a write error does not produce
a failure outcome, contradicting "failure iff an error occurs during
layout load, query execution, row scan, or spool-file write".  (The other
direction — failure on layout, query, creation and scan errors, success on
zero rows — does hold in the source.) -/
theorem extract_write_error_ignored :
    extractData
      { PackageName := [], Procedures := [], SpoolOutputPath := [],
        Format := "delimited".data, Delimiter := ",".data }
      failingWriteEnv = .ok () ∧
    failingWriteEnv.writeRes =
      [.error "write failed: no space left on device".data] :=
  ⟨rfl, rfl⟩

/-- A directory entry of the spool output directory: file name and the
bytes it holds. -/
structure SpoolFile where
  name : Str
  content : Str
deriving DecidableEq

/-- Lexicographic comparison of file names; `os.ReadDir` returns the
directory entries sorted by this order. -/
def lexLeBool : Str → Str → Bool
  | [], _ => true
  | _ :: _, [] => false
  | a :: as, b :: bs =>
      if a < b then true else if a = b then lexLeBool as bs else false

/-- The membership test of the map-building loop of
`consolidateSpoolFiles`: the file name starts with the operation name
followed by an underscore and ends in `".txt"` or `".spool"`. -/
def isSpoolFileOf (proc : Str) (name : Str) : Bool :=
  (proc ++ ['_']).isPrefixOf name &&
    (".txt".data.isSuffixOf name || ".spool".data.isSuffixOf name)

/-- The per-operation spool-file list built by the map loop of
`consolidateSpoolFiles`: matching files are appended in directory-listing
order.  (Each operation name is assumed to appear once in the
configuration's operation list.) -/
def spoolFilesFor (proc : Str) (files : List SpoolFile) : List SpoolFile :=
  files.foldl
    (fun acc f => if isSpoolFileOf proc f.name then acc ++ [f] else acc) []

/-- Outcome of opening and copying one spool file into the consolidated
file: `ok` (all bytes copied, spool file then deleted), `openFail`
(`os.Open` failed, nothing written), `copyFail k` (`io.Copy` failed after
writing `k` bytes). -/
inductive CopyOutcome where
  | ok : CopyOutcome
  | openFail : CopyOutcome
  | copyFail : Nat → CopyOutcome
deriving DecidableEq

/-- The inner loop of `consolidateSpoolFiles` for one operation, carrying
the source's index `i` and total count `n`: a successful copy appends the
file's bytes to the consolidated file, deletes the spool file, and writes
one newline when the file is not the last of the list; `openFail` and
`copyFail` log and `continue`, leaving the spool file in place — for
`copyFail` the bytes copied before the error remain in the output file.
Returns the bytes of the consolidated file and the deleted spool-file
names, in order. -/
def consolidateLoop (oracle : Str → CopyOutcome) (n : Nat) :
    Nat → List SpoolFile → Str × List Str
  | _, [] => ([], [])
  | i, f :: rest =>
      match oracle f.name with
      | .openFail => consolidateLoop oracle n (i + 1) rest
      | .copyFail k =>
          let r := consolidateLoop oracle n (i + 1) rest
          (f.content.take k ++ r.1, r.2)
      | .ok =>
          let r := consolidateLoop oracle n (i + 1) rest
          (f.content ++ (if i < n - 1 then ['\n'] else []) ++ r.1,
           f.name :: r.2)

/-- Model of `consolidateSpoolFiles` (part_002).  `createOk` says whether
`os.Create` of an operation's consolidated file succeeds; on failure that
operation is skipped (`continue`).  The Go map holds only operations with
at least one spool file, so such operations produce no output entry; map
iteration order is arbitrary and per-operation results are independent, so
operations are processed in configuration order.  Returns one entry per
consolidated operation: the final file name (`<proc>.txt`), the bytes it
holds, and the deleted spool files.  Note the final file is created —
truncating any previous file of that name — before any bytes are copied;
there is no temporary file and no rename. -/
def consolidateSpoolFiles (createOk : Str → Bool)
    (oracle : Str → CopyOutcome) (cfg : ExtractionConfig)
    (files : List SpoolFile) : List (Str × Str × List Str) :=
  cfg.Procedures.foldl (fun acc proc =>
    let fl := spoolFilesFor proc files
    if fl = [] then acc
    else if createOk proc then
      acc ++ [(proc ++ ".txt".data, consolidateLoop oracle fl.length 0 fl)]
    else acc) []

/-- C1, divergence.  Operation `P` has two spool files; copying the second
fails after one byte.  The code nevertheless leaves `P.txt` holding the
partial merge `"aaa\nb"` — the final output name was created and truncated
before copying began, there is no temporary-file-plus-rename step — and
the first spool file has already been deleted, while the claim requires
the prior final output and all spool files to be left unchanged and no
partially written file to be visible under the final name.  (Operation `Q`
still consolidates, so per-operation isolation itself holds.) -/
theorem consolidation_partial_file_visible :
    consolidateSpoolFiles (fun _ => true)
      (fun name => if name = "P_S2.spool".data then .copyFail 1 else .ok)
      { PackageName := [], Procedures := ["P".data, "Q".data],
        SpoolOutputPath := [], Format := [], Delimiter := [] }
      [⟨"P_S1.spool".data, "aaa".data⟩, ⟨"P_S2.spool".data, "bbb".data⟩,
       ⟨"Q_S1.spool".data, "qqq".data⟩] =
      [("P.txt".data, "aaa\nb".data, ["P_S1.spool".data]),
       ("Q.txt".data, "qqq".data, ["Q_S1.spool".data])] := by
  decide

theorem spoolFilesFor_eq_filter (proc : Str) (files : List SpoolFile) :
    spoolFilesFor proc files =
      files.filter (fun f => isSpoolFileOf proc f.name) := by
  have aux : ∀ (fs : List SpoolFile) (acc : List SpoolFile),
      fs.foldl
          (fun acc f => if isSpoolFileOf proc f.name then acc ++ [f] else acc)
          acc =
        acc ++ fs.filter (fun f => isSpoolFileOf proc f.name) := by
    intro fs
    induction fs with
    | nil => intro acc; simp
    | cons f rest ih =>
        intro acc
        by_cases h : isSpoolFileOf proc f.name
        · simp [List.filter_cons, h, ih]
        · simp only [List.foldl_cons, if_neg h, ih,
            List.filter_cons, h]
          simp
  simpa using aux files []

theorem consolidateLoop_cons_ok (oracle : Str → CopyOutcome) (n i : Nat)
    (f : SpoolFile) (rest : List SpoolFile) (ho : oracle f.name = .ok) :
    consolidateLoop oracle n i (f :: rest) =
      (f.content ++ (if i < n - 1 then ['\n'] else []) ++
         (consolidateLoop oracle n (i + 1) rest).1,
       f.name :: (consolidateLoop oracle n (i + 1) rest).2) := by
  conv_lhs => rw [consolidateLoop]
  rw [ho]

theorem consolidateLoop_all_ok (files : List SpoolFile) :
    ∀ i n, i + files.length = n →
      consolidateLoop (fun _ => .ok) n i files =
        (List.intercalate ['\n'] (files.map SpoolFile.content),
         files.map SpoolFile.name) := by
  induction files with
  | nil => intro i n _; simp [consolidateLoop, List.intercalate]
  | cons f rest ih =>
      intro i n h
      have hrec := ih (i + 1) n (by simp at h; omega)
      rw [consolidateLoop_cons_ok _ n i f rest rfl, hrec]
      cases rest with
      | nil =>
          have hlast : ¬ i < n - 1 := by simp at h; omega
          simp [hlast, List.intercalate]
      | cons g rest' =>
          have hmid : i < n - 1 := by simp at h; omega
          simp [hmid, List.intercalate, List.intersperse_cons₂,
            List.flatten_cons, List.append_assoc]

/-- The per-operation entry contributed to the result of
`consolidateSpoolFiles` by one operation name. -/
def consolidateEntry (createOk : Str → Bool) (oracle : Str → CopyOutcome)
    (files : List SpoolFile) (proc : Str) : List (Str × Str × List Str) :=
  let fl := spoolFilesFor proc files
  if fl = [] then []
  else if createOk proc then
    [(proc ++ ".txt".data, consolidateLoop oracle fl.length 0 fl)]
  else []

theorem consolidateSpoolFiles_eq_flatMap (createOk : Str → Bool)
    (oracle : Str → CopyOutcome) (cfg : ExtractionConfig)
    (files : List SpoolFile) :
    consolidateSpoolFiles createOk oracle cfg files =
      cfg.Procedures.flatMap (consolidateEntry createOk oracle files) := by
  have aux : ∀ (procs : List Str) (acc : List (Str × Str × List Str)),
      procs.foldl (fun acc proc =>
          let fl := spoolFilesFor proc files
          if fl = [] then acc
          else if createOk proc then
            acc ++ [(proc ++ ".txt".data,
                     consolidateLoop oracle fl.length 0 fl)]
          else acc) acc =
        acc ++ procs.flatMap (consolidateEntry createOk oracle files) := by
    intro procs
    induction procs with
    | nil => intro acc; simp
    | cons p rest ih =>
        intro acc
        simp only [List.foldl_cons, List.flatMap_cons, consolidateEntry]
        by_cases h1 : spoolFilesFor p files = []
        · simp [h1, ih]
        · by_cases h2 : createOk p
          · simp [h1, h2, ih]
          · simp [h1, h2, ih]
  simpa using aux cfg.Procedures []

/-- C8.  With the directory listing sorted by file name (as `os.ReadDir`
guarantees) and every copy succeeding, the consolidated file of an
operation with at least one spool file holds exactly the concatenation of
that operation's spool files' contents, in lexicographic file-name order,
with no separators inside a file's bytes and exactly one newline between
consecutive files; all of its spool files are deleted in that same order. -/
theorem consolidation_order_and_separators (cfg : ExtractionConfig)
    (files : List SpoolFile) (proc : Str)
    (hp : proc ∈ cfg.Procedures)
    (hsorted : files.Pairwise (fun a b => lexLeBool a.name b.name = true))
    (hne : spoolFilesFor proc files ≠ []) :
    (proc ++ ".txt".data,
      List.intercalate ['\n']
        ((spoolFilesFor proc files).map SpoolFile.content),
      (spoolFilesFor proc files).map SpoolFile.name) ∈
        consolidateSpoolFiles (fun _ => true) (fun _ => .ok) cfg files ∧
    ((spoolFilesFor proc files).map SpoolFile.name).Pairwise
      (fun a b => lexLeBool a b = true) := by
  constructor
  · rw [consolidateSpoolFiles_eq_flatMap]
    refine List.mem_flatMap.mpr ⟨proc, hp, ?_⟩
    unfold consolidateEntry
    rw [if_neg hne, if_pos rfl,
        consolidateLoop_all_ok (spoolFilesFor proc files) 0
          (spoolFilesFor proc files).length (by omega)]
    exact List.mem_singleton.mpr rfl
  · rw [spoolFilesFor_eq_filter]
    refine (List.pairwise_map).mpr ?_
    exact List.Pairwise.sublist (List.filter_sublist files) hsorted

theorem consolidation_order_and_separators_witness :
    ((("P".data : Str) ++ ".txt".data,
      List.intercalate ['\n']
        ((spoolFilesFor ("P".data)
            [⟨"P_S1.spool".data, "aa".data⟩,
             ⟨"P_S2.spool".data, "bb".data⟩]).map SpoolFile.content),
      (spoolFilesFor ("P".data)
          [⟨"P_S1.spool".data, "aa".data⟩,
           ⟨"P_S2.spool".data, "bb".data⟩]).map SpoolFile.name) ∈
        consolidateSpoolFiles (fun _ => true) (fun _ => .ok)
          { PackageName := [], Procedures := ["P".data],
            SpoolOutputPath := [], Format := [], Delimiter := [] }
          [⟨"P_S1.spool".data, "aa".data⟩,
           ⟨"P_S2.spool".data, "bb".data⟩]) ∧
    ((spoolFilesFor ("P".data)
        [⟨"P_S1.spool".data, "aa".data⟩,
         ⟨"P_S2.spool".data, "bb".data⟩]).map SpoolFile.name).Pairwise
      (fun a b => lexLeBool a b = true) :=
  consolidation_order_and_separators
    { PackageName := [], Procedures := ["P".data],
      SpoolOutputPath := [], Format := [], Delimiter := [] }
    [⟨"P_S1.spool".data, "aa".data⟩, ⟨"P_S2.spool".data, "bb".data⟩]
    ("P".data) (by decide) (by decide) (by decide)

end Extract
